import Mathlib

/-!
Verification of the RiSC-16 assembler core (assembler.py) against its
specification.  The Python source is shallowly embedded below: every
definition mirrors the corresponding Python function, with Python
exceptions modelled by `Except PyErr`, the Python value `None` by
`Option`, and machine integers by `Nat`/`Int` (Python integers are
unbounded, so no wrap-around modelling is needed).
-/

namespace Risc16

/-- Errors raised by the Python code.  `immOutOfRange` carries the value
and the computed bounds as in the ValueError message of imm_to_bin;
`invalidLiteral` models the ValueError raised by int(); `malformedOperand`
models the ValueError raised by tuple unpacking with the wrong arity;
`reMatchFail` models the TypeError raised by subscripting the None
returned by re.match when the regex does not match. -/
inductive PyErr where
  | immOutOfRange (value minimum maximum : Int)
  | invalidLiteral (s : String)
  | malformedOperand
  | reMatchFail
deriving DecidableEq

/-- Python whitespace characters (ASCII subset of str.strip and regex \s). -/
def isPySpace (c : Char) : Bool :=
  c = ' ' || c = '\t' || c = '\n' || c = '\r' || c = '\x0b' || c = '\x0c'

/-- Word characters of the regex class \w (ASCII subset). -/
def isWordChar (c : Char) : Bool :=
  c.isAlphanum || c = '_'

/-- Python str.strip(): remove leading and trailing whitespace. -/
def pyStrip (s : String) : String :=
  String.mk (((s.data.dropWhile isPySpace).reverse.dropWhile isPySpace).reverse)

/-- Python s.split(sep) for the one-character separator used by the source
(the comma).  Mirrors Python: the empty string splits to one empty field. -/
def splitComma : List Char → List (List Char)
  | [] => [[]]
  | c :: rest =>
    if c = ',' then [] :: splitComma rest
    else
      match splitComma rest with
      | g :: gs => (c :: g) :: gs
      | [] => [[c]]

/-- String-level wrapper for args.split with a comma separator. -/
def splitCommaS (s : String) : List String :=
  (splitComma s.data).map String.mk

/-- Whether pat occurs as a contiguous substring, as the Python test
pat in s does. -/
def containsSeq (pat : List Char) : List Char → Bool
  | [] => List.isPrefixOf pat []
  | c :: rest => List.isPrefixOf pat (c :: rest) || containsSeq pat rest

/-- Decimal digit run to a number; none when empty or a non-digit occurs.
Models int(s) on a sign-free token.  (Python int additionally accepts
underscores between digits; no input considered here uses them.) -/
def digitsToNat (l : List Char) : Option Nat :=
  if l = [] then none
  else if l.all Char.isDigit then
    some (l.foldl (fun a c => 10 * a + (c.toNat - 48)) 0)
  else none

/-- Python int(s) for base 10: strip whitespace, optional sign, digits. -/
def pyInt (s : String) : Option Int :=
  match (pyStrip s).data with
  | '-' :: ds => (digitsToNat ds).map (fun n => -(n : Int))
  | '+' :: ds => (digitsToNat ds).map (fun n => (n : Int))
  | ds => (digitsToNat ds).map (fun n => (n : Int))

/-- Value of one hexadecimal digit. -/
def hexVal (c : Char) : Option Nat :=
  if c.isDigit then some (c.toNat - 48)
  else if 'a' ≤ c && c ≤ 'f' then some (c.toNat - 87)
  else if 'A' ≤ c && c ≤ 'F' then some (c.toNat - 55)
  else none

/-- Hexadecimal digit run to a number; none when empty or invalid. -/
def hexDigitsToNat (l : List Char) : Option Nat :=
  if l = [] then none
  else l.foldl (fun acc c =>
    match acc, hexVal c with
    | some a, some d => some (16 * a + d)
    | _, _ => none) (some 0)

/-- Value of a list of binary digit characters, most significant first. -/
def binValL (l : List Char) : Nat :=
  l.foldl (fun a c => 2 * a + (if c = '1' then 1 else 0)) 0

/-- Binary digit run to a number; none when empty or a non-binary digit
occurs. -/
def binDigitsToNat (l : List Char) : Option Nat :=
  if l = [] then none
  else if l.all (fun c => c = '0' || c = '1') then some (binValL l)
  else none

/-- The literal parser at the top of imm_to_bin: a literal containing
0x is parsed as hexadecimal (int(num, 16)), else one containing 0b as
binary (int(num, 2)), else as decimal (int(num)). -/
def parsePyNum (s : String) : Option Int :=
  if containsSeq ['0', 'x'] s.data then
    match (pyStrip s).data with
    | '-' :: '0' :: 'x' :: ds => (hexDigitsToNat ds).map (fun n => -(n : Int))
    | '+' :: '0' :: 'x' :: ds => (hexDigitsToNat ds).map (fun n => (n : Int))
    | '0' :: 'x' :: ds => (hexDigitsToNat ds).map (fun n => (n : Int))
    | _ => none
  else if containsSeq ['0', 'b'] s.data then
    match (pyStrip s).data with
    | '-' :: '0' :: 'b' :: ds => (binDigitsToNat ds).map (fun n => -(n : Int))
    | '+' :: '0' :: 'b' :: ds => (binDigitsToNat ds).map (fun n => (n : Int))
    | '0' :: 'b' :: ds => (binDigitsToNat ds).map (fun n => (n : Int))
    | _ => none
  else pyInt s

/-- Binary digits of n, most significant first, empty for 0; fuel-based
so that it is structurally recursive (the fuel n always suffices). -/
def natBitsAux : Nat → Nat → List Char
  | 0, _ => []
  | fuel + 1, n =>
    if n = 0 then []
    else natBitsAux fuel (n / 2) ++ [if n % 2 = 1 then '1' else '0']

/-- Binary digits of n, most significant first, empty for 0. -/
def natBits (n : Nat) : List Char :=
  natBitsAux n n

/-- Python bin(n)[2:] for a non-negative n. -/
def binStr (n : Nat) : String :=
  if n = 0 then "0" else String.mk (natBits n)

/-- Python s.zfill(bits) for the sign-free strings produced here. -/
def zfill (bits : Nat) (s : String) : String :=
  String.mk (List.replicate (bits - s.length) '0' ++ s.data)

/-- The core of imm_to_bin after the literal has been parsed to an
integer: the range check (lines 29-38 of assembler.py) and the
conversion to a binary string (lines 40-46).  The model takes
bits ≥ 1, as at every call site (3, 6, 7, 10 and 16). -/
def immToBinVal (num : Int) (bits : Nat) (signed : Bool) : Except PyErr String :=
  let maximum : Int := if signed then 2 ^ (bits - 1) - 1 else 2 ^ bits - 1
  let minimum : Int := if signed then -1 * (2 ^ (bits - 1) - 1) - 1 else 0
  if ¬(minimum ≤ num ∧ num ≤ maximum) then
    .error (.immOutOfRange num minimum maximum)
  else if num < 0 then
    let bitmask : Nat := 2 ^ bits - 1
    .ok (binStr ((bitmask ^^^ (-num).toNat) + 1))
  else
    .ok (zfill bits (binStr num.toNat))

/-- imm_to_bin: parse the literal, then range-check and convert. -/
def immToBin (num : String) (bits : Nat) (signed : Bool := false) :
    Except PyErr String :=
  match parsePyNum num with
  | none => .error (.invalidLiteral num)
  | some n => immToBinVal n bits signed

/-- Decidable equality of results, so that concrete runs of the model
can be checked by evaluation. -/
instance exceptDecEq {ε α : Type} [DecidableEq ε] [DecidableEq α] :
    DecidableEq (Except ε α) := fun x y =>
  match x, y with
  | .ok a, .ok b =>
    if h : a = b then .isTrue (congrArg Except.ok h)
    else .isFalse (fun hh => h (Except.ok.inj hh))
  | .error a, .error b =>
    if h : a = b then .isTrue (congrArg Except.error h)
    else .isFalse (fun hh => h (Except.error.inj hh))
  | .ok _, .error _ => .isFalse (fun hh => Except.noConfusion hh)
  | .error _, .ok _ => .isFalse (fun hh => Except.noConfusion hh)

/-!
Model of the anchored regular-expression match used by both
convert_pseudoinstructions and assemble_line: an optional label (a run of
word characters followed by a colon), optional whitespace, a mnemonic (an
optional dot followed by a run of word characters), at most one
whitespace character, and the rest of the line as the argument group
(the dot class stops at a newline).  Backtracking matters only in one
place: when the label alternative matches but no mnemonic follows it,
the regex engine retries with the label group empty.
-/

/-- The mnemonic token of the regex: an optional dot then a non-empty
run of word characters; returns the token and the remaining input. -/
def matchOp (cs : List Char) : Option (String × List Char) :=
  match cs with
  | '.' :: rest =>
    let run := rest.takeWhile isWordChar
    if run.isEmpty then none
    else some (String.mk ('.' :: run), rest.drop run.length)
  | _ =>
    let run := cs.takeWhile isWordChar
    if run.isEmpty then none
    else some (String.mk run, cs.drop run.length)

/-- The argument group of the regex: skip at most one whitespace
character, then take everything up to the end of the line (a newline
stops the dot class). -/
def argsOf (cs : List Char) : String :=
  let cs2 := match cs with
    | c :: rest => if isPySpace c then rest else cs
    | [] => []
  String.mk (cs2.takeWhile (fun c => c ≠ '\n'))

/-- The regex match with the label group empty. -/
def tryNoLabel (cs : List Char) : Option (Option String × String × String) :=
  match matchOp (cs.dropWhile isPySpace) with
  | some (op, rest) => some (none, op, argsOf rest)
  | none => none

/-- The full regex match: label group (greedy, with fallback to the
empty label when no mnemonic can follow it), mnemonic, arguments. -/
def parseLineCore (cs : List Char) : Option (Option String × String × String) :=
  if (cs.takeWhile isWordChar).isEmpty then tryNoLabel cs
  else
    match cs.drop (cs.takeWhile isWordChar).length with
    | ':' :: afterColon =>
      (match matchOp (afterColon.dropWhile isPySpace) with
       | some (op, rest) =>
         some (some (String.mk (cs.takeWhile isWordChar ++ [':'])), op, argsOf rest)
       | none => tryNoLabel cs)
    | _ => tryNoLabel cs

/-- re.match of the instruction regex on a line, returning the groups
(label with its colon, mnemonic, arguments). -/
def parseLine (line : String) : Option (Option String × String × String) :=
  parseLineCore line.data

/-- The opcode dictionary of assemble_line, looked up with .get. -/
def opcodeTable (op : String) : Option String :=
  List.lookup op
    [("add", "000"), ("addi", "001"), ("nand", "010"), ("lui", "011"),
     ("sw", "100"), ("lw", "101"), ("beq", "110"), ("jalr", "111")]

/-- The dispatch of assemble_line on the mnemonic and argument groups.
A fall-through on an unrecognized mnemonic returns the Python value
None, modelled as ok none.  (On a wrong operand count Python raises
a ValueError during unpacking; for the RRR generator unpacking the
interleaving with imm_to_bin calls can surface a range error first,
but an exception is raised either way, so a single malformedOperand
constructor stands for those unpacking failures.) -/
def assembleOp (op args : String) : Except PyErr (Option String) :=
  let opcode := (opcodeTable op).getD ""
  if op == "add" || op == "nand" then
    match splitCommaS args with
    | [a, b, c] =>
      match immToBin a 3 false, immToBin b 3 false, immToBin c 3 false with
      | .ok ra, .ok rb, .ok rc => .ok (some (opcode ++ ra ++ rb ++ "0000" ++ rc))
      | .error e, _, _ => .error e
      | _, .error e, _ => .error e
      | _, _, .error e => .error e
    | _ => .error .malformedOperand
  else if op == "addi" || op == "sw" || op == "lw" || op == "beq" || op == "jalr" then
    match splitCommaS args with
    | [a, b, i] =>
      match immToBin a 3 false, immToBin b 3 false, immToBin i 7 true with
      | .ok ra, .ok rb, .ok ii => .ok (some (opcode ++ ra ++ rb ++ ii))
      | .error e, _, _ => .error e
      | _, .error e, _ => .error e
      | _, _, .error e => .error e
    | _ => .error .malformedOperand
  else if op == "lui" then
    match splitCommaS args with
    | [a, i] =>
      match immToBin a 3 false, immToBin i 10 false with
      | .ok ra, .ok ii => .ok (some (opcode ++ ra ++ ii))
      | .error e, _ => .error e
      | _, .error e => .error e
    | _ => .error .malformedOperand
  else if op == "nop" then
    .ok (some "00000000000000000")
  else if op == "halt" then
    match immToBin "1" 7 false with
    | .ok ii => .ok (some ("111000000" ++ ii))
    | .error e => .error e
  else if op == "lli" then
    match splitCommaS args with
    | [a, i] =>
      match immToBin a 3 false, immToBin i 6 false with
      | .ok ra, .ok ii => .ok (some ("001" ++ ra ++ ra ++ "0" ++ ii))
      | .error e, _ => .error e
      | _, .error e => .error e
    | _ => .error .malformedOperand
  else if op == ".fill" then
    match immToBin args 16 true with
    | .ok ii => .ok (some ii)
    | .error e => .error e
  else
    .ok none

/-- assemble_line: match the regex (a failed match raises, since the
code subscripts the match object), then dispatch on the mnemonic.  The
label group is never consulted. -/
def assembleLine (line : String) : Except PyErr (Option String) :=
  match parseLine line with
  | none => .error .reMatchFail
  | some (_, op, args) => assembleOp op args

/-- The RRR branch of assemble_line, surfaced as an equation for each
of its two mnemonics (the dispatch conditions and the opcode lookup
reduce definitionally once the mnemonic is concrete). -/
def rrrBranch (opc args : String) : Except PyErr (Option String) :=
  match splitCommaS args with
  | [a, b, c] =>
    match immToBin a 3 false, immToBin b 3 false, immToBin c 3 false with
    | .ok ra, .ok rb, .ok rc => .ok (some (opc ++ ra ++ rb ++ "0000" ++ rc))
    | .error e, _, _ => .error e
    | _, .error e, _ => .error e
    | _, _, .error e => .error e
  | _ => .error .malformedOperand

/-- The RRI branch of assemble_line for one concrete opcode. -/
def rriBranch (opc args : String) : Except PyErr (Option String) :=
  match splitCommaS args with
  | [a, b, i] =>
    match immToBin a 3 false, immToBin b 3 false, immToBin i 7 true with
    | .ok ra, .ok rb, .ok ii => .ok (some (opc ++ ra ++ rb ++ ii))
    | .error e, _, _ => .error e
    | _, .error e, _ => .error e
    | _, _, .error e => .error e
  | _ => .error .malformedOperand

/-- The RI branch of assemble_line (lui). -/
def riBranch (opc args : String) : Except PyErr (Option String) :=
  match splitCommaS args with
  | [a, i] =>
    match immToBin a 3 false, immToBin i 10 false with
    | .ok ra, .ok ii => .ok (some (opc ++ ra ++ ii))
    | .error e, _ => .error e
    | _, .error e => .error e
  | _ => .error .malformedOperand

/-- The lli branch of assemble_line. -/
def lliBranch (args : String) : Except PyErr (Option String) :=
  match splitCommaS args with
  | [a, i] =>
    match immToBin a 3 false, immToBin i 6 false with
    | .ok ra, .ok ii => .ok (some ("001" ++ ra ++ ra ++ "0" ++ ii))
    | .error e, _ => .error e
    | _, .error e => .error e
  | _ => .error .malformedOperand

/-- convert_pseudoinstructions: rewrite .space and movi lines, pass
everything else through unchanged.  An exception aborts the whole
conversion (it is not caught anywhere in assemble_code). -/
def convertPseudo : List String → Except PyErr (List String)
  | [] => .ok []
  | line :: rest =>
    match parseLine line with
    | none => .error .reMatchFail
    | some (label, op, args) =>
      let labelStr := label.getD ""
      if op == ".space" then
        match pyInt args with
        | none => .error (.invalidLiteral args)
        | some n =>
          match convertPseudo rest with
          | .ok tail =>
            .ok ((labelStr ++ " .fill 0") ::
                 (List.replicate (n - 1).toNat ".fill 0" ++ tail))
          | .error e => .error e
      else if op == "movi" then
        match splitCommaS args with
        | [regA, imm] =>
          match pyInt imm with
          | none => .error (.invalidLiteral imm)
          | some v =>
            match convertPseudo rest with
            | .ok tail =>
              .ok ((labelStr ++ " lui " ++ regA ++ "," ++ toString (v.fdiv 64)) ::
                   (("lli " ++ regA ++ "," ++ toString (v.fmod 64)) :: tail))
            | .error e => .error e
        | _ => .error .malformedOperand
      else
        match convertPseudo rest with
        | .ok tail => .ok (line :: tail)
        | .error e => .error e

/-- Whether a stripped line starts with the comment marker. -/
def startsWithHash (s : String) : Bool :=
  match s.data with
  | '#' :: _ => true
  | _ => false

/-- has_code, exactly as written in the source: because of operator
precedence this is (not comment) or (blank), so a blank line counts as
code. -/
def hasCode (line : String) : Bool :=
  !(startsWithHash (pyStrip line)) || (pyStrip line == "")

/-- The preprocessing generator of assemble_code: keep the lines that
pass has_code, stripped. -/
def preprocess (code : List String) : List String :=
  (code.filter hasCode).map pyStrip

/-- The first space-separated token of a line (str.partition of a space). -/
def firstToken (l : String) : List Char :=
  l.data.takeWhile (fun c => c ≠ ' ')

/-- Whether a token ends with a colon (str.endswith). -/
def endsColon (t : List Char) : Bool :=
  match t.getLast? with
  | some c => c = ':'
  | none => false

/-- The (name, index) pairs of the LABELS construction in assemble_code:
enumerate the lines, keep those whose first token ends with a colon,
and pair the part before the first colon with the line index. -/
def labelPairs (code : List String) : List (String × Nat) :=
  (code.enum.filter (fun p => endsColon (firstToken p.2))).map
    (fun p => (String.mk (p.2.data.takeWhile (fun c => c ≠ ':')), p.1))

/-- One key-value insertion into a Python dict: an existing key has its
value replaced, a new key is appended. -/
def dictInsert : List (String × Nat) → String × Nat → List (String × Nat)
  | [], p => [p]
  | (k, v) :: rest, p =>
    if k = p.1 then (k, p.2) :: rest else (k, v) :: dictInsert rest p

/-- Python dict(pairs): later pairs silently override earlier ones. -/
def pyDict (ps : List (String × Nat)) : List (String × Nat) :=
  ps.foldl dictInsert []

/-- The value attached to the last pair carrying the given key. -/
def lastLookup : List (String × Nat) → String → Option Nat
  | [], _ => none
  | (k, v) :: rest, key =>
    match lastLookup rest key with
    | some v2 => some v2
    | none => if k = key then some v else none

/-- The encoding loop of assemble_code: each line's assemble_line result
(possibly the Python None) is appended; the first exception makes the
whole function return None, modelled as none. -/
def encodeLoop : List String → Option (List (Option String))
  | [] => some []
  | l :: rest =>
    match assembleLine l with
    | .error _ => none
    | .ok w =>
      match encodeLoop rest with
      | some ws => some (w :: ws)
      | none => none

/-- assemble_code: preprocess, expand pseudo-instructions (whose
exceptions are uncaught, hence the outer Except), build the label dict
(which is never read afterwards), then run the encoding loop. -/
def assembleCode (code : List String) :
    Except PyErr (Option (List (Option String))) :=
  match convertPseudo (preprocess code) with
  | .error e => .error e
  | .ok expanded =>
    let _LABELS := pyDict (labelPairs expanded)
    .ok (encodeLoop expanded)

/-- Unsigned reinterpretation of a binary string, used to state the
round-trip properties of the specification. -/
def binValue (s : String) : Nat :=
  binValL s.data

/-- Two's-complement reinterpretation of a binary string of the given
width, used to state the signed round-trip property. -/
def twosValue (s : String) (bits : Nat) : Int :=
  if 2 ^ (bits - 1) ≤ binValue s then (binValue s : Int) - 2 ^ bits
  else (binValue s : Int)

/-- A string whose characters are all binary digits. -/
def BinaryStr (s : String) : Prop :=
  ∀ c ∈ s.data, c = '0' ∨ c = '1'

instance decidableBinaryStr (s : String) : Decidable (BinaryStr s) :=
  List.decidableBAll _ s.data

/-! ### Arithmetic facts about the binary rendering -/

theorem natBitsAux_zero (fuel : Nat) : natBitsAux fuel 0 = [] := by
  cases fuel <;> simp [natBitsAux]

theorem natBitsAux_fuel :
    ∀ fuel fuel2 n, n ≤ fuel → n ≤ fuel2 → natBitsAux fuel n = natBitsAux fuel2 n := by
  intro fuel
  induction fuel with
  | zero =>
    intro fuel2 n h1 _
    have : n = 0 := Nat.le_zero.mp h1
    subst this
    rw [natBitsAux_zero, natBitsAux_zero]
  | succ f ih =>
    intro fuel2 n h1 h2
    cases n with
    | zero => rw [natBitsAux_zero, natBitsAux_zero]
    | succ m =>
      cases fuel2 with
      | zero => omega
      | succ f2 =>
        show (if m + 1 = 0 then [] else _) = (if m + 1 = 0 then [] else _)
        rw [if_neg (Nat.succ_ne_zero m), if_neg (Nat.succ_ne_zero m)]
        have hd : (m + 1) / 2 ≤ f := by omega
        have hd2 : (m + 1) / 2 ≤ f2 := by omega
        rw [ih f2 ((m + 1) / 2) hd hd2]

theorem natBits_rec (n : Nat) (h : n ≠ 0) :
    natBits n = natBits (n / 2) ++ [if n % 2 = 1 then '1' else '0'] := by
  cases n with
  | zero => exact absurd rfl h
  | succ m =>
    show natBitsAux (m + 1) (m + 1) = _
    have step : natBitsAux (m + 1) (m + 1)
        = natBitsAux m ((m + 1) / 2) ++ [if (m + 1) % 2 = 1 then '1' else '0'] := by
      simp [natBitsAux]
    rw [step]
    unfold natBits
    rw [natBitsAux_fuel m ((m + 1) / 2) ((m + 1) / 2) (by omega) (Nat.le_refl _)]

theorem binValL_append_digit (l : List Char) (c : Char) :
    binValL (l ++ [c]) = 2 * binValL l + (if c = '1' then 1 else 0) := by
  simp [binValL, List.foldl_append]

theorem binValL_natBits (n : Nat) : binValL (natBits n) = n := by
  induction n using Nat.strong_induction_on with
  | _ n ih =>
    by_cases h : n = 0
    · subst h; rfl
    · rw [natBits_rec n h, binValL_append_digit,
        ih (n / 2) (Nat.div_lt_self (Nat.pos_of_ne_zero h) Nat.one_lt_two)]
      rcases Nat.mod_two_eq_zero_or_one n with h2 | h2 <;> simp [h2] <;> omega

theorem natBits_length_le : ∀ n b, n < 2 ^ b → (natBits n).length ≤ b := by
  intro n
  induction n using Nat.strong_induction_on with
  | _ n ih =>
    intro b h
    by_cases h0 : n = 0
    · subst h0
      show (natBitsAux 0 0).length ≤ b
      simp [natBitsAux]
    · cases b with
      | zero =>
        simp only [pow_zero] at h
        omega
      | succ k =>
        rw [natBits_rec n h0, List.length_append]
        have hlt : n / 2 < 2 ^ k := by
          rw [Nat.div_lt_iff_lt_mul (by omega : 0 < 2)]
          calc n < 2 ^ (k + 1) := h
            _ = 2 ^ k * 2 := by rw [pow_succ]
        have := ih (n / 2) (Nat.div_lt_self (Nat.pos_of_ne_zero h0) Nat.one_lt_two) k hlt
        simp
        omega

theorem natBits_length_gt : ∀ n b, 2 ^ b ≤ n → b < (natBits n).length := by
  intro n
  induction n using Nat.strong_induction_on with
  | _ n ih =>
    intro b h
    have h0 : n ≠ 0 := by
      have : 0 < 2 ^ b := Nat.pos_pow_of_pos b (by omega)
      omega
    cases b with
    | zero =>
      rw [natBits_rec n h0, List.length_append]
      simp
    | succ k =>
      have hle : 2 ^ k ≤ n / 2 := by
        rw [Nat.le_div_iff_mul_le (by omega : 0 < 2)]
        calc 2 ^ k * 2 = 2 ^ (k + 1) := by rw [pow_succ]
          _ ≤ n := h
      have := ih (n / 2) (Nat.div_lt_self (Nat.pos_of_ne_zero h0) Nat.one_lt_two) k hle
      rw [natBits_rec n h0, List.length_append]
      simp
      omega

theorem natBits_binary : ∀ n, ∀ c ∈ natBits n, c = '0' ∨ c = '1' := by
  intro n
  induction n using Nat.strong_induction_on with
  | _ n ih =>
    intro c hc
    by_cases h0 : n = 0
    · subst h0
      simp [natBits, natBitsAux] at hc
    · rw [natBits_rec n h0] at hc
      rcases List.mem_append.mp hc with hl | hr
      · exact ih (n / 2) (Nat.div_lt_self (Nat.pos_of_ne_zero h0) Nat.one_lt_two) c hl
      · rcases List.mem_singleton.mp hr with rfl
        split <;> simp

theorem xorMask (b m : Nat) (h : m < 2 ^ b) : (2 ^ b - 1) ^^^ m = 2 ^ b - 1 - m := by
  have h1 : 2 ^ b - 1 - m = 2 ^ b - (m + 1) := by omega
  rw [h1]
  apply Nat.eq_of_testBit_eq
  intro i
  rw [Nat.testBit_xor, Nat.testBit_two_pow_sub_one, Nat.testBit_two_pow_sub_succ h]
  by_cases hi : i < b
  · simp [hi, Bool.xor_comm]
  · have hm : m.testBit i = false := by
      apply Nat.testBit_lt_two_pow
      calc m < 2 ^ b := h
        _ ≤ 2 ^ i := Nat.pow_le_pow_right (by omega) (by omega)
    simp [hi, hm]

theorem binStr_value (n : Nat) : binValue (binStr n) = n := by
  by_cases h : n = 0
  · subst h; rfl
  · simp only [binStr, if_neg h, binValue]
    exact binValL_natBits n

theorem binStr_binary (n : Nat) : BinaryStr (binStr n) := by
  by_cases h : n = 0
  · subst h
    intro c hc
    simp [binStr] at hc
    simp [hc]
  · simp only [binStr, if_neg h]
    intro c hc
    exact natBits_binary n c hc

theorem binStr_length_le (n b : Nat) (hb : 0 < b) (h : n < 2 ^ b) :
    (binStr n).length ≤ b := by
  by_cases h0 : n = 0
  · subst h0
    show ("0" : String).length ≤ b
    simpa using hb
  · simp only [binStr, if_neg h0]
    show (natBits n).length ≤ b
    exact natBits_length_le n b h

theorem binStr_length_eq (n b : Nat) (h1 : 2 ^ (b - 1) ≤ n) (h2 : n < 2 ^ b)
    (hb : 0 < b) : (binStr n).length = b := by
  have h0 : n ≠ 0 := by
    have : 0 < 2 ^ (b - 1) := Nat.pos_pow_of_pos _ (by omega)
    omega
  simp only [binStr, if_neg h0]
  show (natBits n).length = b
  have hle := natBits_length_le n b h2
  have hgt := natBits_length_gt n (b - 1) h1
  omega

theorem foldl_zeros (k : Nat) :
    List.foldl (fun a c => 2 * a + (if c = '1' then 1 else 0)) 0
      (List.replicate k '0') = 0 := by
  induction k with
  | zero => rfl
  | succ m ih => simpa [List.replicate] using ih

theorem zfill_value (b : Nat) (s : String) : binValue (zfill b s) = binValue s := by
  simp [binValue, zfill, binValL, List.foldl_append, foldl_zeros]

theorem zfill_length (b : Nat) (s : String) (h : s.length ≤ b) :
    (zfill b s).length = b := by
  show (List.replicate (b - s.length) '0' ++ s.data).length = b
  rw [List.length_append, List.length_replicate]
  have : s.data.length = s.length := rfl
  omega

theorem zfill_binary (b : Nat) (s : String) (h : BinaryStr s) :
    BinaryStr (zfill b s) := by
  intro c hc
  rcases List.mem_append.mp hc with hl | hr
  · left
    exact List.eq_of_mem_replicate hl
  · exact h c hr

/-! ### Behaviour of the immediate encoder core -/

theorem cast_two_pow (b : Nat) : ((2 ^ b : Nat) : Int) = 2 ^ b := by
  push_cast
  ring

theorem two_pow_split (b : Nat) (hb : 0 < b) : (2 ^ b : Nat) = 2 * 2 ^ (b - 1) := by
  cases b with
  | zero => omega
  | succ k =>
    show 2 ^ (k + 1) = 2 * 2 ^ (k + 1 - 1)
    rw [pow_succ, Nat.mul_comm]
    rfl

theorem immToBinVal_false_def (v : Int) (b : Nat) :
    immToBinVal v b false =
      if ¬(0 ≤ v ∧ v ≤ 2 ^ b - 1) then
        .error (.immOutOfRange v 0 (2 ^ b - 1))
      else if v < 0 then .ok (binStr (((2 ^ b - 1) ^^^ (-v).toNat) + 1))
      else .ok (zfill b (binStr v.toNat)) := rfl

theorem immToBinVal_true_def (v : Int) (b : Nat) :
    immToBinVal v b true =
      if ¬(-1 * (2 ^ (b - 1) - 1) - 1 ≤ v ∧ v ≤ 2 ^ (b - 1) - 1) then
        .error (.immOutOfRange v (-1 * (2 ^ (b - 1) - 1) - 1) (2 ^ (b - 1) - 1))
      else if v < 0 then .ok (binStr (((2 ^ b - 1) ^^^ (-v).toNat) + 1))
      else .ok (zfill b (binStr v.toNat)) := rfl

theorem immToBinVal_unsigned_eq (b : Nat) (v : Int) (h0 : 0 ≤ v)
    (h1 : v ≤ 2 ^ b - 1) :
    immToBinVal v b false = .ok (zfill b (binStr v.toNat)) := by
  rw [immToBinVal_false_def, if_neg (by omega), if_neg (by omega)]

theorem immToBinVal_signed_eq_nonneg (b : Nat) (v : Int) (h0 : 0 ≤ v)
    (h1 : v ≤ 2 ^ (b - 1) - 1) :
    immToBinVal v b true = .ok (zfill b (binStr v.toNat)) := by
  rw [immToBinVal_true_def, if_neg (by omega), if_neg (by omega)]

theorem immToBinVal_signed_eq_neg (b : Nat) (v : Int) (h0 : v < 0)
    (h1 : -(2 ^ (b - 1)) ≤ v) :
    immToBinVal v b true = .ok (binStr (((2 ^ b - 1) ^^^ (-v).toNat) + 1)) := by
  have hmax : (0 : Int) < 2 ^ (b - 1) := pow_pos (by norm_num) _
  rw [immToBinVal_true_def, if_neg (by omega), if_pos h0]

theorem immToBinVal_unsigned_error (b : Nat) (v : Int) :
    immToBinVal v b false = .error (.immOutOfRange v 0 (2 ^ b - 1)) ↔
      ¬(0 ≤ v ∧ v ≤ 2 ^ b - 1) := by
  constructor
  · intro h hrange
    rw [immToBinVal_unsigned_eq b v hrange.1 hrange.2] at h
    exact absurd h (by simp)
  · intro h
    rw [immToBinVal_false_def, if_pos h]

theorem immToBinVal_signed_error (b : Nat) (v : Int) :
    immToBinVal v b true = .error (.immOutOfRange v (-(2 ^ (b - 1))) (2 ^ (b - 1) - 1)) ↔
      ¬(-(2 ^ (b - 1)) ≤ v ∧ v ≤ 2 ^ (b - 1) - 1) := by
  have hmin : (-1 : Int) * (2 ^ (b - 1) - 1) - 1 = -(2 ^ (b - 1)) := by ring
  constructor
  · intro h hrange
    rcases lt_or_le v 0 with hv | hv
    · rw [immToBinVal_signed_eq_neg b v hv hrange.1] at h
      exact absurd h (by simp)
    · rw [immToBinVal_signed_eq_nonneg b v hv hrange.2] at h
      exact absurd h (by simp)
  · intro h
    rw [immToBinVal_true_def, if_pos (by omega), hmin]

theorem roundtrip_unsigned (b : Nat) (v : Int) (hb : 0 < b) (h0 : 0 ≤ v)
    (h1 : v ≤ 2 ^ b - 1) :
    ∃ s, immToBinVal v b false = .ok s ∧ s.length = b ∧
      (binValue s : Int) = v ∧ BinaryStr s := by
  refine ⟨zfill b (binStr v.toNat), immToBinVal_unsigned_eq b v h0 h1, ?_, ?_, ?_⟩
  · apply zfill_length
    apply binStr_length_le _ _ hb
    have hc := cast_two_pow b
    omega
  · rw [zfill_value, binStr_value]
    omega
  · exact zfill_binary _ _ (binStr_binary _)

theorem roundtrip_signed (b : Nat) (v : Int) (hb : 0 < b)
    (h0 : -(2 ^ (b - 1)) ≤ v) (h1 : v ≤ 2 ^ (b - 1) - 1) :
    ∃ s, immToBinVal v b true = .ok s ∧ s.length = b ∧
      twosValue s b = v ∧ BinaryStr s := by
  have hsplitN : (2 ^ b : Nat) = 2 * 2 ^ (b - 1) := two_pow_split b hb
  have hcb := cast_two_pow b
  have hcp := cast_two_pow (b - 1)
  have hposp : (0 : Nat) < 2 ^ (b - 1) := Nat.pos_pow_of_pos _ (by omega)
  rcases lt_or_le v 0 with hv | hv
  · -- negative value: two's-complement branch
    set m : Nat := (-v).toNat with hm
    have hmv : (m : Int) = -v := Int.toNat_of_nonneg (by omega)
    have hm1 : 1 ≤ m := by omega
    have hm2 : m ≤ 2 ^ (b - 1) := by omega
    have hmlt : m < 2 ^ b := by omega
    have hxor : ((2 ^ b - 1) ^^^ m) + 1 = 2 ^ b - m := by
      rw [xorMask b m hmlt]
      omega
    refine ⟨binStr (((2 ^ b - 1) ^^^ m) + 1),
      immToBinVal_signed_eq_neg b v hv h0, ?_, ?_, ?_⟩
    · rw [hxor]
      apply binStr_length_eq _ _ _ _ hb <;> omega
    · have hval : binValue (binStr (((2 ^ b - 1) ^^^ m) + 1)) = 2 ^ b - m := by
        rw [hxor, binStr_value]
      rw [twosValue, hval, if_pos (by omega)]
      have hcast : ((2 ^ b - m : Nat) : Int) = ((2 ^ b : Nat) : Int) - m := by
        push_cast [Nat.cast_sub (le_of_lt hmlt)]
        ring
      omega
    · rw [hxor]
      exact binStr_binary _
  · -- non-negative value: plain zero-filled binary
    refine ⟨zfill b (binStr v.toNat), immToBinVal_signed_eq_nonneg b v hv h1, ?_, ?_, ?_⟩
    · apply zfill_length
      apply binStr_length_le _ _ hb
      omega
    · rw [twosValue, zfill_value, binStr_value, if_neg (by omega)]
      omega
    · exact zfill_binary _ _ (binStr_binary _)

theorem immToBinVal_ok_shape (v : Int) (b : Nat) (sg : Bool) (w : String)
    (hb : 0 < b) (h : immToBinVal v b sg = .ok w) :
    w.length = b ∧ BinaryStr w := by
  cases sg
  · by_cases hr : 0 ≤ v ∧ v ≤ 2 ^ b - 1
    · obtain ⟨s, hs, hlen, _, hbin⟩ := roundtrip_unsigned b v hb hr.1 hr.2
      rw [hs] at h
      obtain rfl : s = w := by
        injection h
      exact ⟨hlen, hbin⟩
    · rw [(immToBinVal_unsigned_error b v).mpr hr] at h
      exact absurd h (by simp)
  · by_cases hr : -(2 ^ (b - 1)) ≤ v ∧ v ≤ 2 ^ (b - 1) - 1
    · obtain ⟨s, hs, hlen, _, hbin⟩ := roundtrip_signed b v hb hr.1 hr.2
      rw [hs] at h
      obtain rfl : s = w := by
        injection h
      exact ⟨hlen, hbin⟩
    · rw [(immToBinVal_signed_error b v).mpr hr] at h
      exact absurd h (by simp)

theorem immToBin_ok_shape (s : String) (b : Nat) (sg : Bool) (w : String)
    (hb : 0 < b) (h : immToBin s b sg = .ok w) :
    w.length = b ∧ BinaryStr w := by
  unfold immToBin at h
  cases hp : parsePyNum s with
  | none => rw [hp] at h; exact absurd h (by simp)
  | some n =>
    rw [hp] at h
    exact immToBinVal_ok_shape n b sg w hb h

/-! ### Behaviour of the regex model -/

theorem word_not_space (c : Char) (h : isWordChar c = true) : isPySpace c = false := by
  by_contra hs
  rw [Bool.not_eq_false] at hs
  simp only [isPySpace, Bool.or_eq_true, decide_eq_true_eq] at hs
  rcases hs with ((((rfl | rfl) | rfl) | rfl) | rfl) | rfl <;>
    exact absurd h (by decide)

theorem dropWhile_of_word_head (cs : List Char)
    (h : ¬(cs.takeWhile isWordChar).isEmpty) :
    cs.dropWhile isPySpace = cs := by
  cases cs with
  | nil => rfl
  | cons c t =>
    by_cases hw : isWordChar c
    · simp [List.dropWhile, word_not_space c hw]
    · simp [List.takeWhile, hw] at h

theorem parseLine_none_shape (L : String) (op args : String)
    (h : parseLine L = some (none, op, args)) :
    ∃ rest, matchOp (L.data.dropWhile isPySpace) = some (op, rest) ∧
      args = argsOf rest := by
  have htry : ∀ cs, tryNoLabel cs = some (none, op, args) →
      ∃ rest, matchOp (cs.dropWhile isPySpace) = some (op, rest) ∧
        args = argsOf rest := by
    intro cs hc
    unfold tryNoLabel at hc
    cases hm : matchOp (cs.dropWhile isPySpace) with
    | none => rw [hm] at hc; exact absurd hc (by simp)
    | some p =>
      obtain ⟨op2, rest2⟩ := p
      rw [hm] at hc
      simp only [Option.some.injEq, Prod.mk.injEq, true_and] at hc
      obtain ⟨h1, h2⟩ := hc
      subst h1
      subst h2
      exact ⟨rest2, rfl, rfl⟩
  unfold parseLine parseLineCore at h
  split at h
  · exact htry _ h
  · split at h
    · split at h
      · exact absurd (Option.some.inj h) (by simp)
      · exact htry _ h
    · exact htry _ h

theorem parseLine_with_label (X L : String) (hne : X.data ≠ [])
    (hw : ∀ c ∈ X.data, isWordChar c = true) (op args : String)
    (h : parseLine L = some (none, op, args)) :
    parseLine (X ++ ": " ++ L) = some (some (X ++ ":"), op, args) := by
  obtain ⟨rest, hmatch, hargs⟩ := parseLine_none_shape L op args h
  have hdata : (X ++ ": " ++ L).data = X.data ++ ':' :: ' ' :: L.data := by
    simp
  unfold parseLine parseLineCore
  rw [hdata]
  have hrun : (X.data ++ ':' :: ' ' :: L.data).takeWhile isWordChar = X.data := by
    rw [List.takeWhile_append_of_pos hw]
    rw [List.takeWhile_cons]
    simp [show isWordChar ':' = false from by decide]
  rw [hrun]
  rw [if_neg (by simpa [List.isEmpty_iff] using hne)]
  rw [List.drop_left]
  show (match matchOp ((' ' :: L.data).dropWhile isPySpace) with
    | some (op2, rest2) =>
      some (some (String.mk (X.data ++ [':'])), op2, argsOf rest2)
    | none => tryNoLabel (X.data ++ ':' :: ' ' :: L.data)) = _
  have hsp : (' ' :: L.data).dropWhile isPySpace = L.data.dropWhile isPySpace := by
    rw [List.dropWhile_cons]
    simp [show isPySpace ' ' = true from by decide]
  rw [hsp, hmatch]
  have hmk : String.mk (X.data ++ [':']) = X ++ ":" := by
    apply congrArg
    rfl
  rw [hmk, hargs]

/-! ### Shape of assembled machine words -/

theorem BinaryStr_append (s t : String) (hs : BinaryStr s) (ht : BinaryStr t) :
    BinaryStr (s ++ t) := by
  intro c hc
  rw [String.data_append] at hc
  rcases List.mem_append.mp hc with h | h
  · exact hs c h
  · exact ht c h

theorem assembleOp_add (args : String) :
    assembleOp "add" args = rrrBranch "000" args := rfl

theorem assembleOp_nand (args : String) :
    assembleOp "nand" args = rrrBranch "010" args := rfl

theorem assembleOp_addi (args : String) :
    assembleOp "addi" args = rriBranch "001" args := rfl

theorem assembleOp_sw (args : String) :
    assembleOp "sw" args = rriBranch "100" args := rfl

theorem assembleOp_lw (args : String) :
    assembleOp "lw" args = rriBranch "101" args := rfl

theorem assembleOp_beq (args : String) :
    assembleOp "beq" args = rriBranch "110" args := rfl

theorem assembleOp_jalr (args : String) :
    assembleOp "jalr" args = rriBranch "111" args := rfl

theorem assembleOp_lui (args : String) :
    assembleOp "lui" args = riBranch "011" args := rfl

theorem assembleOp_nop (args : String) :
    assembleOp "nop" args = .ok (some "00000000000000000") := rfl

theorem assembleOp_halt (args : String) :
    assembleOp "halt" args =
      (match immToBin "1" 7 false with
       | .ok ii => .ok (some ("111000000" ++ ii))
       | .error e => .error e) := rfl

theorem assembleOp_lli (args : String) :
    assembleOp "lli" args = lliBranch args := rfl

theorem assembleOp_fill (args : String) :
    assembleOp ".fill" args =
      (match immToBin args 16 true with
       | .ok ii => .ok (some ii)
       | .error e => .error e) := rfl

theorem rrrBranch_shape (opc args w : String) (hl : opc.length = 3)
    (hb : BinaryStr opc) (h : rrrBranch opc args = .ok (some w)) :
    w.length = 16 ∧ BinaryStr w := by
  unfold rrrBranch at h
  split at h
  · split at h
    all_goals try (exfalso; simp at h; done)
    rename_i ra rb rc ha hbb hc
    simp only [Except.ok.injEq, Option.some.injEq] at h
    subst h
    obtain ⟨la, ba⟩ := immToBin_ok_shape _ 3 false ra (by norm_num) ha
    obtain ⟨lb, bb⟩ := immToBin_ok_shape _ 3 false rb (by norm_num) hbb
    obtain ⟨lc, bc⟩ := immToBin_ok_shape _ 3 false rc (by norm_num) hc
    constructor
    · simp only [String.length_append, hl, la, lb, lc]
      decide
    · exact BinaryStr_append _ _ (BinaryStr_append _ _ (BinaryStr_append _ _
        (BinaryStr_append _ _ hb ba) bb) (by decide)) bc
  · simp at h

theorem rriBranch_shape (opc args w : String) (hl : opc.length = 3)
    (hb : BinaryStr opc) (h : rriBranch opc args = .ok (some w)) :
    w.length = 16 ∧ BinaryStr w := by
  unfold rriBranch at h
  split at h
  · split at h
    all_goals try (exfalso; simp at h; done)
    rename_i ra rb ii ha hbb hi
    simp only [Except.ok.injEq, Option.some.injEq] at h
    subst h
    obtain ⟨la, ba⟩ := immToBin_ok_shape _ 3 false ra (by norm_num) ha
    obtain ⟨lb, bb⟩ := immToBin_ok_shape _ 3 false rb (by norm_num) hbb
    obtain ⟨li, bi⟩ := immToBin_ok_shape _ 7 true ii (by norm_num) hi
    constructor
    · simp only [String.length_append, hl, la, lb, li]
    · exact BinaryStr_append _ _ (BinaryStr_append _ _
        (BinaryStr_append _ _ hb ba) bb) bi
  · simp at h

theorem riBranch_shape (opc args w : String) (hl : opc.length = 3)
    (hb : BinaryStr opc) (h : riBranch opc args = .ok (some w)) :
    w.length = 16 ∧ BinaryStr w := by
  unfold riBranch at h
  split at h
  · split at h
    all_goals try (exfalso; simp at h; done)
    rename_i ra ii ha hi
    simp only [Except.ok.injEq, Option.some.injEq] at h
    subst h
    obtain ⟨la, ba⟩ := immToBin_ok_shape _ 3 false ra (by norm_num) ha
    obtain ⟨li, bi⟩ := immToBin_ok_shape _ 10 false ii (by norm_num) hi
    constructor
    · simp only [String.length_append, hl, la, li]
    · exact BinaryStr_append _ _ (BinaryStr_append _ _ hb ba) bi
  · simp at h

theorem lliBranch_shape (args w : String) (h : lliBranch args = .ok (some w)) :
    w.length = 16 ∧ BinaryStr w := by
  unfold lliBranch at h
  split at h
  · split at h
    all_goals try (exfalso; simp at h; done)
    rename_i ra ii ha hi
    simp only [Except.ok.injEq, Option.some.injEq] at h
    subst h
    obtain ⟨la, ba⟩ := immToBin_ok_shape _ 3 false ra (by norm_num) ha
    obtain ⟨li, bi⟩ := immToBin_ok_shape _ 6 false ii (by norm_num) hi
    constructor
    · simp only [String.length_append, la, li]
      decide
    · exact BinaryStr_append _ _ (BinaryStr_append _ _ (BinaryStr_append _ _
        (BinaryStr_append _ _ (by decide) ba) ba) (by decide)) bi
  · simp at h

theorem assembleOp_ok_shape (op args w : String)
    (h : assembleOp op args = .ok (some w)) :
    (w.length = 16 ∧ BinaryStr w) ∨ w = "00000000000000000" := by
  by_cases hop : op = "add" ∨ op = "nand" ∨ op = "addi" ∨ op = "sw" ∨ op = "lw"
      ∨ op = "beq" ∨ op = "jalr" ∨ op = "lui" ∨ op = "nop" ∨ op = "halt"
      ∨ op = "lli" ∨ op = ".fill"
  · rcases hop with rfl | rfl | rfl | rfl | rfl | rfl | rfl | rfl | rfl | rfl | rfl | rfl
    · rw [assembleOp_add] at h
      exact Or.inl (rrrBranch_shape "000" args w rfl (by decide) h)
    · rw [assembleOp_nand] at h
      exact Or.inl (rrrBranch_shape "010" args w rfl (by decide) h)
    · rw [assembleOp_addi] at h
      exact Or.inl (rriBranch_shape "001" args w rfl (by decide) h)
    · rw [assembleOp_sw] at h
      exact Or.inl (rriBranch_shape "100" args w rfl (by decide) h)
    · rw [assembleOp_lw] at h
      exact Or.inl (rriBranch_shape "101" args w rfl (by decide) h)
    · rw [assembleOp_beq] at h
      exact Or.inl (rriBranch_shape "110" args w rfl (by decide) h)
    · rw [assembleOp_jalr] at h
      exact Or.inl (rriBranch_shape "111" args w rfl (by decide) h)
    · rw [assembleOp_lui] at h
      exact Or.inl (riBranch_shape "011" args w rfl (by decide) h)
    · rw [assembleOp_nop] at h
      simp only [Except.ok.injEq, Option.some.injEq] at h
      exact Or.inr h.symm
    · rw [assembleOp_halt] at h
      split at h
      all_goals try (exfalso; simp at h; done)
      rename_i ii hi
      simp only [Except.ok.injEq, Option.some.injEq] at h
      subst h
      obtain ⟨li, bi⟩ := immToBin_ok_shape _ 7 false ii (by norm_num) hi
      left
      constructor
      · simp only [String.length_append, li]
        decide
      · exact BinaryStr_append _ _ (by decide) bi
    · rw [assembleOp_lli] at h
      exact Or.inl (lliBranch_shape args w h)
    · rw [assembleOp_fill] at h
      split at h
      all_goals try (exfalso; simp at h; done)
      rename_i ii hi
      simp only [Except.ok.injEq, Option.some.injEq] at h
      subst h
      obtain ⟨li, bi⟩ := immToBin_ok_shape _ 16 true ii (by norm_num) hi
      exact Or.inl ⟨li, bi⟩
  · push_neg at hop
    obtain ⟨h1, h2, h3, h4, h5, h6, h7, h8, h9, h10, h11, h12⟩ := hop
    unfold assembleOp at h
    simp [h1, h2, h3, h4, h5, h6, h7, h8, h9, h10, h11, h12] at h

/-! ### Last-one-wins behaviour of the label dictionary -/

theorem lookup_cons (k a : String) (b : Nat) (rest : List (String × Nat)) :
    List.lookup k ((a, b) :: rest) =
      if a = k then some b else List.lookup k rest := by
  show (match k == a with
    | true => some b
    | false => List.lookup k rest) = _
  by_cases hk : a = k
  · rw [if_pos hk]
    rw [show (k == a) = true from beq_iff_eq.mpr hk.symm]
  · rw [if_neg hk]
    rw [show (k == a) = false from
      beq_eq_false_iff_ne.mpr (fun hh => hk hh.symm)]

theorem lookup_dictInsert (acc : List (String × Nat)) (p : String × Nat)
    (k : String) :
    List.lookup k (dictInsert acc p) =
      if p.1 = k then some p.2 else List.lookup k acc := by
  obtain ⟨a, b⟩ := p
  induction acc with
  | nil =>
    show List.lookup k [(a, b)] = _
    rw [lookup_cons]
  | cons q rest ih =>
    obtain ⟨k0, v0⟩ := q
    show List.lookup k (if k0 = a then (k0, b) :: rest else
      (k0, v0) :: dictInsert rest (a, b)) = _
    by_cases h0 : k0 = a
    · subst h0
      rw [if_pos rfl, lookup_cons, lookup_cons]
      by_cases hk : k0 = k
      · rw [if_pos hk, if_pos hk]
      · rw [if_neg hk, if_neg hk, if_neg (fun hh => hk hh)]
    · rw [if_neg h0, lookup_cons, ih, lookup_cons]
      by_cases hk : k0 = k <;> by_cases hak : a = k
      · exact absurd (hk.trans hak.symm) h0
      · rw [if_pos hk, if_neg hak, if_pos hk]
      · rw [if_neg hk, if_pos hak, if_pos hak]
      · rw [if_neg hk, if_neg hak, if_neg hak, if_neg hk]

theorem pyDict_go (ps : List (String × Nat)) :
    ∀ acc k, List.lookup k (ps.foldl dictInsert acc) =
      match lastLookup ps k with
      | some v => some v
      | none => List.lookup k acc := by
  induction ps with
  | nil => intro acc k; rfl
  | cons q ps ih =>
    intro acc k
    obtain ⟨k0, v0⟩ := q
    show List.lookup k (ps.foldl dictInsert (dictInsert acc (k0, v0))) = _
    rw [ih]
    cases hl : lastLookup ps k with
    | some v => simp [lastLookup, hl]
    | none =>
      rw [lookup_dictInsert]
      simp only [lastLookup, hl]
      by_cases hk : k0 = k
      · simp [hk]
      · simp [hk]

/-! ### Claim theorems -/

/-- C6: for every bit width and every value in the unsigned range, the
string produced by the immediate encoder with signed set to false
reinterprets as that value; for every value in the signed range, the
string produced with signed set to true reinterprets as that value under
bits-wide two's complement; both strings have exactly bits digits. -/
theorem c6_immediate_roundtrip (bits : Nat) (hb : 0 < bits) :
    (∀ v : Int, 0 ≤ v → v ≤ 2 ^ bits - 1 →
      ∃ s, immToBinVal v bits false = .ok s ∧ s.length = bits ∧
        (binValue s : Int) = v) ∧
    (∀ v : Int, -(2 ^ (bits - 1)) ≤ v → v ≤ 2 ^ (bits - 1) - 1 →
      ∃ s, immToBinVal v bits true = .ok s ∧ s.length = bits ∧
        twosValue s bits = v) := by
  constructor
  · intro v h0 h1
    obtain ⟨s, he, hl, hv, -⟩ := roundtrip_unsigned bits v hb h0 h1
    exact ⟨s, he, hl, hv⟩
  · intro v h0 h1
    obtain ⟨s, he, hl, hv, -⟩ := roundtrip_signed bits v hb h0 h1
    exact ⟨s, he, hl, hv⟩

/-- C6, witness: the round-trip theorem instantiated at width 7 with the
values 5 (unsigned) and -3 (signed). -/
theorem c6_immediate_roundtrip_witness :
    (∃ s, immToBinVal 5 7 false = .ok s ∧ s.length = 7 ∧
      (binValue s : Int) = 5) ∧
    (∃ s, immToBinVal (-3) 7 true = .ok s ∧ s.length = 7 ∧
      twosValue s 7 = -3) :=
  ⟨(c6_immediate_roundtrip 7 (by decide)).1 5 (by decide) (by decide),
   (c6_immediate_roundtrip 7 (by decide)).2 (-3) (by decide) (by decide)⟩

/-- C7: the immediate encoder fails with the out-of-range error exactly
when the value lies outside the unsigned range for signed=false or the
signed range for signed=true; in particular the value 2^bits fails
unsigned, 2^(bits-1) fails signed, and each boundary value of either
range succeeds. -/
theorem c7_range_check (bits : Nat) (_hb : 0 < bits) :
    (∀ v : Int,
      (immToBinVal v bits false = .error (.immOutOfRange v 0 (2 ^ bits - 1)) ↔
        ¬(0 ≤ v ∧ v ≤ 2 ^ bits - 1))) ∧
    (∀ v : Int,
      (immToBinVal v bits true =
          .error (.immOutOfRange v (-(2 ^ (bits - 1))) (2 ^ (bits - 1) - 1)) ↔
        ¬(-(2 ^ (bits - 1)) ≤ v ∧ v ≤ 2 ^ (bits - 1) - 1))) ∧
    immToBinVal (2 ^ bits) bits false =
      .error (.immOutOfRange (2 ^ bits) 0 (2 ^ bits - 1)) ∧
    immToBinVal (2 ^ (bits - 1)) bits true =
      .error (.immOutOfRange (2 ^ (bits - 1)) (-(2 ^ (bits - 1)))
        (2 ^ (bits - 1) - 1)) ∧
    immToBinVal 0 bits false = .ok (zfill bits (binStr 0)) ∧
    immToBinVal (2 ^ bits - 1) bits false =
      .ok (zfill bits (binStr ((2 ^ bits - 1 : Int)).toNat)) ∧
    immToBinVal (-(2 ^ (bits - 1))) bits true =
      .ok (binStr (((2 ^ bits - 1) ^^^ ((2 ^ (bits - 1) : Int)).toNat) + 1)) ∧
    immToBinVal (2 ^ (bits - 1) - 1) bits true =
      .ok (zfill bits (binStr ((2 ^ (bits - 1) - 1 : Int)).toNat)) := by
  have hpb : (0 : Int) < 2 ^ bits := pow_pos (by norm_num) _
  have hpp : (0 : Int) < 2 ^ (bits - 1) := pow_pos (by norm_num) _
  refine ⟨immToBinVal_unsigned_error bits, immToBinVal_signed_error bits,
    ?_, ?_, ?_, ?_, ?_, ?_⟩
  · rw [immToBinVal_unsigned_error]
    omega
  · rw [immToBinVal_signed_error]
    omega
  · have h := immToBinVal_unsigned_eq bits 0 (by omega) (by omega)
    simpa using h
  · exact immToBinVal_unsigned_eq bits (2 ^ bits - 1) (by omega) (by omega)
  · have h := immToBinVal_signed_eq_neg bits (-(2 ^ (bits - 1)))
      (by omega) (by omega)
    simpa using h
  · exact immToBinVal_signed_eq_nonneg bits (2 ^ (bits - 1) - 1)
      (by omega) (by omega)

/-- C7, witness: at width 7 the encoder rejects 128 unsigned and 64
signed, and accepts the boundary value 127 unsigned. -/
theorem c7_range_check_witness :
    immToBinVal (2 ^ 7) 7 false =
      .error (.immOutOfRange (2 ^ 7) 0 (2 ^ 7 - 1)) ∧
    immToBinVal (2 ^ (7 - 1)) 7 true =
      .error (.immOutOfRange (2 ^ (7 - 1)) (-(2 ^ (7 - 1))) (2 ^ (7 - 1) - 1)) ∧
    immToBinVal (2 ^ 7 - 1) 7 false =
      .ok (zfill 7 (binStr ((2 ^ 7 - 1 : Int)).toNat)) := by
  have h := c7_range_check 7 (by decide)
  exact ⟨h.2.2.1, h.2.2.2.1, h.2.2.2.2.2.1⟩

/-- C10: the label group never influences encoding: for a line that
parses without a label, prefixing a label produces the same
assemble_line result, word or error. -/
theorem c10_label_insensitive (X L op args : String) (hne : X ≠ "")
    (hw : ∀ c ∈ X.data, isWordChar c = true)
    (h : parseLine L = some (none, op, args)) :
    assembleLine (X ++ ": " ++ L) = assembleLine L := by
  have hne2 : X.data ≠ [] := by
    intro hd
    apply hne
    obtain ⟨d⟩ := X
    simp only at hd
    rw [hd]
  unfold assembleLine
  rw [parseLine_with_label X L hne2 hw op args h, h]

/-- C10, witness: prefixing the label loop to the line add 1,2,3 leaves
the assembled word unchanged. -/
theorem c10_label_insensitive_witness :
    assembleLine ("loop" ++ ": " ++ "add 1,2,3") = assembleLine "add 1,2,3" :=
  c10_label_insensitive "loop" "add 1,2,3" "add" "1,2,3" (by decide)
    (by decide) (by decide)

/-- C1: evaluation at the failing input.  For the unrecognized mnemonic
foo, assemble_line raises nothing and returns the Python None, which the
encoding loop appends to the machine-code list before continuing, and
assemble_code succeeds with that None placeholder in its result — there
is no UnknownOpcode failure. -/
theorem c1_unknown_opcode_eval :
    assembleLine "foo 1,2" = .ok none ∧
    encodeLoop ["foo 1,2"] = some [none] ∧
    assembleCode ["foo 1,2"] = .ok (some [none]) :=
  ⟨rfl, rfl, rfl⟩

/-- C2, counterexample: a program with the same label on two lines does
not fail; the label dict silently keeps only the last index and assembly
proceeds to produce machine words. -/
theorem c2_duplicate_label_counterexample :
    pyDict (labelPairs ["a: nop", "a: nop"]) = [("a", 1)] ∧
    assembleCode ["a: nop", "a: nop"] =
      .ok (some [some "00000000000000000", some "00000000000000000"]) :=
  ⟨rfl, rfl⟩

/-- C2 (amended): building the label table never fails; a duplicated
label name is silently overwritten, so the table maps every name to the
index recorded by its last labelled occurrence. -/
theorem c2_label_table_last_wins (code : List String) (name : String) :
    List.lookup name (pyDict (labelPairs code)) =
      lastLookup (labelPairs code) name := by
  rw [pyDict, pyDict_go]
  cases lastLookup (labelPairs code) name <;> rfl

/-- C3 (amended): every machine word successfully emitted by
assemble_line is a string of exactly 16 characters drawn from 0 and 1,
except for nop, whose word is the literal 17-character all-zero
string. -/
theorem c3_word_shape (line w : String)
    (h : assembleLine line = .ok (some w)) :
    (w.length = 16 ∧ BinaryStr w) ∨ w = "00000000000000000" := by
  unfold assembleLine at h
  cases hp : parseLine line with
  | none => rw [hp] at h; exact absurd h (by simp)
  | some t =>
    obtain ⟨lab, op, args⟩ := t
    rw [hp] at h
    exact assembleOp_ok_shape op args w h

/-- C3, counterexample: nop emits a 17-character word, so the claim
that every successfully assembled line emits exactly 16 characters is
false. -/
theorem c3_nop_counterexample :
    assembleLine "nop" = .ok (some "00000000000000000") ∧
    ("00000000000000000" : String).length = 17 :=
  ⟨rfl, rfl⟩

/-- C3, witness: the amended shape theorem applied to the line
.fill 5. -/
theorem c3_word_shape_witness :
    ((("0000000000000101" : String).length = 16 ∧
      BinaryStr "0000000000000101") ∨
    ("0000000000000101" : String) = "00000000000000000") :=
  c3_word_shape ".fill 5" "0000000000000101" rfl

/-- C4, counterexample: the line .space 0 expands to one .fill 0
instruction, not zero. -/
theorem c4_space_zero_counterexample :
    convertPseudo [".space 0"] = .ok [" .fill 0"] ∧
    ([" .fill 0"] : List String).length = 1 :=
  ⟨rfl, rfl⟩

/-- C4 (amended): a .space N line (N ≥ 0) expands to max(N,1) .fill 0
instructions — one even when N is 0 — with the original label, when
present, attached only to the first. -/
theorem c4_space_expansion (line : String) (lab : Option String)
    (args : String) (n : Int) (rest tail : List String)
    (hp : parseLine line = some (lab, ".space", args))
    (hn : pyInt args = some n) (h0 : 0 ≤ n)
    (hrest : convertPseudo rest = .ok tail) :
    convertPseudo (line :: rest) =
      .ok ((lab.getD "" ++ " .fill 0") ::
        (List.replicate (n - 1).toNat ".fill 0" ++ tail)) ∧
    ((lab.getD "" ++ " .fill 0") ::
      List.replicate (n - 1).toNat ".fill 0").length = max n.toNat 1 := by
  constructor
  · unfold convertPseudo
    rw [hp]
    norm_num [hn, hrest]
  · simp only [List.length_cons, List.length_replicate]
    omega

/-- C4, witness: the amended expansion theorem at the line
L: .space 3, which produces three .fill 0 lines, the first labelled. -/
theorem c4_space_expansion_witness :
    convertPseudo ["L: .space 3"] =
      .ok ["L: .fill 0", ".fill 0", ".fill 0"] := by
  have hh := c4_space_expansion "L: .space 3" (some "L:") "3" 3 [] []
    rfl rfl (by decide) rfl
  exact hh.1.trans (by rfl)

/-- C5: evaluation at the failing input.  Because of the operator
precedence slip in has_code, a blank line is kept by the preprocessor
(contradicting the docstring of has_code and the claim), and the kept
empty string then crashes the pseudo-instruction expander. -/
theorem c5_blank_line_kept_eval :
    hasCode "" = true ∧
    preprocess ["  ", "# note", "add 1,2,3", ""] = ["", "add 1,2,3", ""] ∧
    convertPseudo [""] = .error .reMatchFail :=
  ⟨rfl, rfl, rfl⟩

/-- C8: a movi R,V line expands to exactly two instructions, lui with
the floor quotient of V by 64 (carrying the label, if any) followed by
lli with the remainder (carrying no label); the quotient and remainder
satisfy the div and mod laws for the positive divisor 64. -/
theorem c8_movi_expansion (line : String) (lab : Option String)
    (args regA imm : String) (v : Int) (rest tail : List String)
    (hp : parseLine line = some (lab, "movi", args))
    (hsplit : splitCommaS args = [regA, imm])
    (hv : pyInt imm = some v)
    (hrest : convertPseudo rest = .ok tail) :
    convertPseudo (line :: rest) =
      .ok ((lab.getD "" ++ " lui " ++ regA ++ "," ++ toString (v.fdiv 64)) ::
        ("lli " ++ regA ++ "," ++ toString (v.fmod 64)) :: tail) ∧
    64 * v.fdiv 64 + v.fmod 64 = v ∧
    0 ≤ v.fmod 64 ∧ v.fmod 64 < 64 := by
  refine ⟨?_, Int.fdiv_add_fmod v 64, Int.fmod_nonneg' v (by norm_num),
    Int.fmod_lt_of_pos v (by norm_num)⟩
  unfold convertPseudo
  rw [hp]
  show (match splitCommaS args with
    | [rA, im] =>
      match pyInt im with
      | none => Except.error (PyErr.invalidLiteral im)
      | some v2 =>
        match convertPseudo rest with
        | Except.ok tl =>
          Except.ok ((lab.getD "" ++ " lui " ++ rA ++ "," ++ toString (v2.fdiv 64)) ::
            (("lli " ++ rA ++ "," ++ toString (v2.fmod 64)) :: tl))
        | Except.error e => Except.error e
    | _ => Except.error PyErr.malformedOperand) = _
  rw [hsplit]
  show (match pyInt imm with
    | none => Except.error (PyErr.invalidLiteral imm)
    | some v2 =>
      match convertPseudo rest with
      | Except.ok tl =>
        Except.ok ((lab.getD "" ++ " lui " ++ regA ++ "," ++ toString (v2.fdiv 64)) ::
          (("lli " ++ regA ++ "," ++ toString (v2.fmod 64)) :: tl))
      | Except.error e => Except.error e) = _
  rw [hv, hrest]

/-- C8, witness: movi r2,65 expands to lui r2,1 followed by lli r2,1. -/
theorem c8_movi_expansion_witness :
    convertPseudo ["movi r2,65"] = .ok [" lui r2,1", "lli r2,1"] := by
  have hh := c8_movi_expansion "movi r2,65" none "r2,65" "r2" "65" 65 [] []
    rfl rfl rfl rfl
  exact hh.1.trans (by rfl)

/-- C9: the encoding loop is fail-fast: when a line raises an encoding
error, the whole loop returns the explicit failure value none — never a
partial list — and its result does not depend on the lines after the
failing one. -/
theorem c9_fail_fast (pre : List String) (l : String) (post : List String)
    (e : PyErr) (h : assembleLine l = .error e) :
    encodeLoop (pre ++ l :: post) = none ∧
    ∀ post2, encodeLoop (pre ++ l :: post) = encodeLoop (pre ++ l :: post2) := by
  have key : ∀ (pr : List String) (po : List String),
      encodeLoop (pr ++ l :: po) = none := by
    intro pr po
    induction pr with
    | nil =>
      show encodeLoop (l :: po) = none
      unfold encodeLoop
      rw [h]
    | cons p pr ih =>
      show encodeLoop (p :: (pr ++ l :: po)) = none
      unfold encodeLoop
      cases hap : assembleLine p with
      | error e2 => rfl
      | ok w => rw [ih]
  exact ⟨key pre post, fun post2 => (key pre post).trans (key pre post2).symm⟩

/-- C9, witness: the loop on nop, an out-of-range .fill and halt
returns the failure value none. -/
theorem c9_fail_fast_witness :
    encodeLoop (["nop"] ++ ".fill 70000" :: ["halt"]) = none :=
  (c9_fail_fast ["nop"] ".fill 70000" ["halt"]
    (.immOutOfRange 70000 (-32768) 32767) (by decide)).1

end Risc16
